import Mathlib

/-
Verification of the MGNREGS dashboard data-transformation engine
(`server.js`).  The JavaScript source is shallowly embedded: JS numbers
become exact rationals, JS dynamic field values become the `JsVal`
inductive, JS objects (used as string-keyed maps with insertion order)
become association lists, and fallible results become `Option`.
-/

namespace MG

/-- A dynamic JavaScript value as it occurs in a raw data row: null,
undefined, a string, or a (finite) number.  JS `NaN`/`Infinity` never
occur as stored field values in this program, so numbers are modelled
as exact rationals. -/
inductive JsVal where
  | vnull
  | vundef
  | vstr (s : String)
  | vnum (q : ℚ)
deriving DecidableEq

/-- JS `String.prototype.trim`: drop leading and trailing whitespace.
Implemented over the character list (Lean's `String.trim` computes the
same result but does not reduce inside the kernel). -/
def jsTrim (s : String) : String :=
  ⟨((s.data.dropWhile Char.isWhitespace).reverse.dropWhile Char.isWhitespace).reverse⟩

/-- Embedding of `isValidString` (server.js:194): a value is a valid
string iff it is not null/undefined, is of string type, and its trim is
non-empty. -/
def isValidString (v : JsVal) : Bool :=
  match v with
  | .vstr s => decide (jsTrim s ≠ "")
  | _ => false

/-- Numeric value of a list of decimal digit characters (helper for the
decimal-string parser). -/
def digitsVal (cs : List Char) : ℕ :=
  cs.foldl (fun a c => a * 10 + (c.toNat - 48)) 0

/-- Parse a plain decimal string (optional sign, digits, optional
fractional part) to a rational, after trimming whitespace.  This models
JS `Number(s)` / `parseFloat(s)` for the decimal notation occurring in
this data set; exotic notations (exponents, hex) are outside the model.
Returns `none` when the string is not (entirely) a plain decimal
numeral, which is exactly when JS `isFinite(s)` or `parseFloat(s)`
rejects such a string. -/
def parseDecimal (s : String) : Option ℚ :=
  let t := (jsTrim s).data
  let sgn : ℚ × List Char :=
    match t with
    | '-' :: r => (-1, r)
    | '+' :: r => (1, r)
    | r => (1, r)
  match sgn.2.splitOn '.' with
  | [ip] =>
      if ip ≠ [] ∧ ip.all Char.isDigit then some (sgn.1 * digitsVal ip) else none
  | [ip, fp] =>
      if (ip ≠ [] ∨ fp ≠ []) ∧ ip.all Char.isDigit ∧ fp.all Char.isDigit then
        some (sgn.1 * ((digitsVal ip : ℚ) + (digitsVal fp : ℚ) / (10 : ℚ) ^ fp.length))
      else none
  | _ => none

/-- Embedding of `isValidNumeric` (server.js:203):
`!isNaN(parseFloat(value)) && isFinite(value)`.  A number value is
always valid (finite in the model); a string is valid iff it is a full
decimal numeral (then both `parseFloat` and `Number` accept it);
null/undefined coerce to NaN and are invalid. -/
def isValidNumeric (v : JsVal) : Bool :=
  match v with
  | .vnum _ => true
  | .vstr s => (parseDecimal s).isSome
  | _ => false

/-- Embedding of `parseNumericSafe` (server.js:207): the parsed numeric
value when valid, else the supplied default. -/
def parseNumericSafe (v : JsVal) (d : ℚ) : ℚ :=
  match v with
  | .vnum q => q
  | .vstr s => (parseDecimal s).getD d
  | _ => d

/-- One raw data row, restricted to the fields the engine reads
(via `CONFIG.MAPPINGS` and the hard-coded `state_name` / `month`
accesses).  `month` is kept as a plain string because the loader
unconditionally calls `localeCompare` on it. -/
structure Row where
  district_code : JsVal
  district_name : JsVal
  state_name : JsVal
  month : String
  employed : JsVal
  paymentSpeed : JsVal
deriving DecidableEq

/-- Placeholder row used only to make `mkEntry` total; every district
group produced by the loader is non-empty, so it is never read. -/
def defaultRow : Row :=
  { district_code := .vundef, district_name := .vundef, state_name := .vundef
    month := "", employed := .vundef, paymentSpeed := .vundef }

/-- JS property-key coercion for the district id.  Accepted rows always
carry a string district code, so only the string case is reachable. -/
def keyOf (v : JsVal) : String :=
  match v with
  | .vstr s => s
  | _ => ""

/-- Embedding of `validateDistrictData` (server.js:218): the row is
rejected only when the district id is not a valid string; all other
field checks merely log warnings and keep the row. -/
def validateDistrictData (r : Row) : Bool :=
  isValidString r.district_code

section AssocObject

variable {β : Type}

/-- Whether a JS-object-as-map (association list) has a key. -/
def hasKey (m : List (String × β)) (k : String) : Bool :=
  m.any (fun p => decide (p.1 = k))

/-- Property read `obj[k]` on a JS-object-as-map. -/
def getKey : List (String × β) → String → Option β
  | [], _ => none
  | p :: m, k => if p.1 = k then some p.2 else getKey m k

/-- Property write `obj[k] = v` on a JS-object-as-map: replace in place
when the key exists, otherwise append (JS objects keep insertion order
for string keys; no claim here depends on the special ordering of
integer-like keys). -/
def setKey (m : List (String × β)) (k : String) (v : β) : List (String × β) :=
  if hasKey m k then m.map (fun p => if p.1 = k then (k, v) else p)
  else m ++ [(k, v)]

/-- Perform the property writes of a key/value list in order (the
loader's `for (const districtId in dataMap)` loop writing
`csvData[districtId] = ...`). -/
def putAll (s : List (String × β)) (es : List (String × β)) : List (String × β) :=
  es.foldl (fun m p => setKey m p.1 p.2) s

end AssocObject

/-- Append a row to its district's group, creating the group when absent
(embedding of `dataMap[districtId].push(row)` with the
`if (!dataMap[districtId]) dataMap[districtId] = []` guard,
server.js:309). -/
def pushGroup (m : List (String × List Row)) (k : String) (r : Row) :
    List (String × List Row) :=
  if hasKey m k then m.map (fun p => if p.1 = k then (p.1, p.2 ++ [r]) else p)
  else m ++ [(k, [r])]

/-- Group the accepted rows of a snapshot by district id, in arrival
order (the `data.forEach` loop of `loadDataFromCloud`,
server.js:285). Rejected rows are only counted, never stored. -/
def groupRows (data : List Row) : List (String × List Row) :=
  data.foldl
    (fun m r =>
      if validateDistrictData r then pushGroup m (keyOf r.district_code) r else m)
    []

/-- The process-wide data-quality counters (server.js:181).
`completenessScore` is `Option ℚ` because JS stores the float
`(validRows / totalRows) * 100`, which is `NaN` on an empty snapshot
(0/0); `none` models that NaN. -/
structure QualityMetrics where
  totalRows : ℕ
  validRows : ℕ
  invalidRows : ℕ
  skippedDistricts : ℕ
  completenessScore : Option ℚ
deriving DecidableEq

/-- Number of accepted rows of a snapshot. -/
def countValid (data : List Row) : ℕ :=
  (data.filter (fun r => validateDistrictData r)).length

/-- The quality metrics recomputed by one ingestion cycle
(server.js:325-329).  `invalidRows` and `skippedDistricts` are both
incremented exactly once per rejected row. -/
def computeMetrics (data : List Row) : QualityMetrics :=
  let n := data.length
  let m := countValid data
  { totalRows := n, validRows := m, invalidRows := n - m, skippedDistricts := n - m
    completenessScore :=
      if n = 0 then none else some ((m : ℚ) / (n : ℕ) * 100) }

/-- Insert a row into a list already sorted by month descending, after
all rows with a strictly later or equal month (stability). -/
def insertDescByMonth (r : Row) : List Row → List Row
  | [] => [r]
  | y :: ys => if y.month < r.month then r :: y :: ys else y :: insertDescByMonth r ys

/-- Stable sort by month descending, the embedding of
`sort((a, b) => b.month.localeCompare(a.month))` (server.js:333);
`localeCompare` on the year-month tokens of this data set is plain
lexicographic comparison. -/
def sortByMonthDesc (l : List Row) : List Row :=
  l.foldl (fun acc r => insertDescByMonth r acc) []

/-- One entry of the in-memory store: the latest raw row of the district
plus the fixed-length employment history (server.js:350-353). -/
structure Entry where
  raw : Row
  historicalEmployed : List ℚ
deriving DecidableEq

/-- Build a district's store entry from its (non-empty) group of
accepted rows: sort by month descending, take the latest row, map the
first six rows' employment values through safe parsing, and right-pad
with `historical[0] || 0` up to length 6 (server.js:332-353). -/
def mkEntry (g : List Row) : Entry :=
  let sorted := sortByMonthDesc g
  let latest := sorted.headD defaultRow
  let hist0 := (sorted.take 6).map (fun r => parseNumericSafe r.employed 0)
  { raw := latest
    historicalEmployed := hist0 ++ List.replicate (6 - hist0.length) (hist0.headD 0) }

/-- The in-memory district store `csvData` (server.js:266), a JS object
keyed by district id. -/
abbrev Store := List (String × Entry)

/-- The per-district entries one ingestion cycle computes from a
snapshot, keyed and ordered like the loader's `dataMap`. -/
def buildEntries (data : List Row) : List (String × Entry) :=
  (groupRows data).map (fun p => (p.1, mkEntry p.2))

/-- Embedding of the data-processing core of `loadDataFromCloud`
(server.js:269-373): given the current store and a parsed snapshot,
write each computed district entry into the store (`csvData[districtId]
= ...` — note this upserts into the existing object, it does not clear
it first) and recompute the quality metrics.  The spec calls this
operation `rebuild`. -/
def loadDataFromCloud (store : Store) (data : List Row) :
    Store × QualityMetrics :=
  (putAll store (buildEntries data), computeMetrics data)

/-- The spec's name for the ingestion operation. -/
abbrev rebuild := loadDataFromCloud

/-- The `CONFIG.ML_FEATURES` flag block (server.js:62-69). -/
structure MLFeatures where
  enabled : Bool
  linearRegression : Bool
  classification : Bool
  timeSeriesForecasting : Bool
  anomalyDetection : Bool
  clustering : Bool
deriving DecidableEq

/-- The flag values shipped in `CONFIG` (all on). -/
def mlOn : MLFeatures :=
  { enabled := true, linearRegression := true, classification := true
    timeSeriesForecasting := true, anomalyDetection := true, clustering := true }

/-- The regression index positions `1..n`
(`Array.from({length: n}, (_, i) => i + 1)`, server.js:99). -/
def indices (n : ℕ) : List ℚ :=
  (List.range n).map (fun (i : ℕ) => ((i : ℚ) + 1))

/-- Embedding of `simpleLinearRegression` (server.js:73): closed-form
ordinary-least-squares slope and intercept.  JS computes `sumXY` as
`Σ x[i]*y[i]`; for equal-length inputs (the only use) this is the
`zipWith` sum. `y[0] || 0` is `headD 0` (both yield 0 for an empty or
zero-headed list). -/
def simpleLinearRegression (x y : List ℚ) : ℚ × ℚ :=
  if x.length < 2 then (0, y.headD 0)
  else
    let n : ℚ := x.length
    let sumX := x.sum
    let sumY := y.sum
    let sumXY := (List.zipWith (fun a b => a * b) x y).sum
    let sumXX := (x.map (fun a => a * a)).sum
    let slope := (n * sumXY - sumX * sumY) / (n * sumXX - sumX * sumX)
    let intercept := (sumY - slope * sumX) / n
    (slope, intercept)

/-- Embedding of `predictLinearRegression` (server.js:88). -/
def predictLinearRegression (x slope intercept : ℚ) : ℚ :=
  slope * x + intercept

/-- Embedding of `predictEmploymentMissing` (server.js:92): gated by the
master and per-estimator flags; keeps only strictly positive history
entries; requires at least two of them; fits OLS over index positions
1..n; predicts at n+1; clamps at 0. -/
def predictEmploymentMissing (flags : MLFeatures) (historical : List ℚ) : Option ℚ :=
  if flags.enabled && flags.linearRegression then
    let validData := historical.filter (fun v => decide (0 < v))
    if validData.length < 2 then none
    else
      let sl := simpleLinearRegression (indices validData.length) validData
      some (max 0 (predictLinearRegression ((validData.length : ℚ) + 1) sl.1 sl.2))
  else none

/-- Embedding of `classifyPaymentSpeed` (server.js:105).  On an empty
history JS compares against a NaN mean, so the trend is never
"improving"; that is the `[]` case. -/
def classifyPaymentSpeed (flags : MLFeatures) (employment : ℚ) (historical : List ℚ) :
    Option String :=
  if flags.enabled && flags.classification then
    let improving : Bool :=
      match historical with
      | [] => false
      | _ => decide (historical.sum / (historical.length : ℚ) < employment)
    if improving ∧ employment > 100000 then some "Good"
    else if improving ∧ employment > 50000 then some "Okay"
    else some "Bad"
  else none

/-- Embedding of `forecastTimeSeries` (server.js:120): exponential
smoothing with fixed alpha 0.3, seeded with the first history element,
blended across the remaining elements in list order, clamped at 0.
On an empty history JS produces NaN (no numeric result), modelled as
`none`; in the program histories always have length 6. -/
def forecastTimeSeries (flags : MLFeatures) (historical : List ℚ) : Option ℚ :=
  if flags.enabled && flags.timeSeriesForecasting then
    match historical with
    | [] => none
    | h :: t =>
        some (max 0 (t.foldl (fun s a => (3 / 10 : ℚ) * a + (1 - 3 / 10) * s) h))
  else none

/-- Embedding of `detectAnomaly` (server.js:133).  JS computes
`|value - mean| / sqrt(variance) > 2`; both sides are non-negative, so
for positive variance this is `(value - mean)^2 > 4 * variance`.  With
variance 0, JS divides by zero: the z-score is `Infinity` when the
value differs from the mean (comparison true) and `NaN` when it equals
it (comparison false).  On an empty history every JS quantity is NaN
and the comparison is false. -/
def detectAnomaly (flags : MLFeatures) (value : ℚ) (historical : List ℚ) : Bool :=
  if flags.enabled && flags.anomalyDetection then
    match historical with
    | [] => false
    | _ =>
        let n : ℚ := historical.length
        let mean := historical.sum / n
        let variance := (historical.map (fun v => (v - mean) ^ 2)).sum / n
        if variance = 0 then decide (value ≠ mean)
        else decide ((value - mean) ^ 2 > 4 * variance)
  else false

/-- The three hand-set cluster centroids (server.js:151-155),
as (employment, paymentSpeed) pairs. -/
def centroids : List (ℚ × ℚ) := [(150000, 80), (75000, 50), (25000, 20)]

/-- Squared Euclidean distance; JS compares `Math.sqrt` of these, and
square root is strictly monotone on non-negatives, so comparisons of
squared distances are equivalent. -/
def sqDist (a b : ℚ × ℚ) : ℚ :=
  (a.1 - b.1) ^ 2 + (a.2 - b.2) ^ 2

/-- Index of the nearest centroid (server.js:158-171): fold with
`minDistance` starting at Infinity (modelled `none`) and a strict
less-than update, so the first minimal centroid wins. -/
def assignCluster (employment paymentSpeed : ℚ) : ℕ :=
  (((List.range centroids.length).zip centroids).foldl
    (fun best ic =>
      let d := sqDist (employment, paymentSpeed) ic.2
      match best.1 with
      | none => (some d, ic.1)
      | some m => if d < m then (some d, ic.1) else best)
    ((none : Option ℚ), 0)).2

/-- The id/metrics triple the clustering endpoint extracts per district. -/
structure DistrictPoint where
  id : String
  employment : ℚ
  paymentSpeed : ℚ
deriving DecidableEq

/-- Embedding of `clusterDistricts` (server.js:146): gated by flags
(returning the empty object), otherwise each district id is appended to
its nearest centroid's bucket.  The JS result object is keyed by the
small integers 0..2; it is modelled as an insertion-ordered association
list (no claim depends on key enumeration order). -/
def clusterDistricts (flags : MLFeatures) (ds : List DistrictPoint) :
    List (ℕ × List String) :=
  if flags.enabled && flags.clustering then
    ds.foldl
      (fun cl d =>
        let cid := assignCluster d.employment d.paymentSpeed
        if cl.any (fun p => decide (p.1 = cid)) then
          cl.map (fun p => if p.1 = cid then (p.1, p.2 ++ [d.id]) else p)
        else cl ++ [(cid, [d.id])])
      []
  else []

/-- JS `Number.prototype.toFixed(2)`: round to two decimals and render
with exactly two fractional digits.  Ties-to-away versus binary-double
artefacts of JS never arise at the exact decimal inputs used in the
theorems below; rounding is modelled as round-half-up. -/
def toFixed2 (q : ℚ) : String :=
  let n : ℤ := round (q * 100)
  toString (n / 100) ++ "." ++
    (if n % 100 < 10 then "0" else "") ++ toString (n % 100)

/-- JS `Number.prototype.toString` for the values reachable in the
formatter's final branch; it agrees with JS exactly on integers, the
only values the theorems below evaluate it at. -/
def ratToString (q : ℚ) : String :=
  if q.den = 1 then toString q.num
  else toString q.num ++ "/" ++ toString q.den

namespace AnalysisRules

/-- Embedding of `CONFIG.ANALYSIS_RULES.peopleEmployed` (server.js:49):
at or above 100000 scale to Lakh with two decimals, at or above 1000
scale to Thousand with two decimals, otherwise `toString`. -/
def peopleEmployed (value : ℚ) : String :=
  if 100000 ≤ value then toFixed2 (value / 100000) ++ " Lakh"
  else if 1000 ≤ value then toFixed2 (value / 1000) ++ " Thousand"
  else ratToString value

end AnalysisRules

/-- String payload of a `JsVal` known to be a string (used only under an
`isValidString` guard). -/
def strOf (v : JsVal) : String :=
  match v with
  | .vstr s => s
  | _ => ""

/-- Embedding of the `/api/districts` handler body (server.js:409-425):
keep exactly the stored districts whose latest raw row has
`state_name === "UTTAR PRADESH"` (the filter is hard-coded — the
function takes no filter argument), and display the raw district name
when it is a valid string, else the district id. -/
def listDistricts (store : Store) : List (String × String) :=
  (store.filter (fun p => decide (p.2.raw.state_name = JsVal.vstr "UTTAR PRADESH"))).map
    (fun p =>
      (p.1,
        if isValidString p.2.raw.district_name then strOf p.2.raw.district_name
        else p.1))

/-- Squared-error objective of a candidate line over data points
(index, value); the quantity ordinary least squares minimises. -/
def sqErr (s b : ℚ) (pts : List (ℚ × ℚ)) : ℚ :=
  (pts.map (fun p => (s * p.1 + b - p.2) ^ 2)).sum

/-- The line (s, b) is an ordinary-least-squares fit of the points:
no other line has smaller squared error. -/
def IsOLSFit (s b : ℚ) (pts : List (ℚ × ℚ)) : Prop :=
  ∀ s' b' : ℚ, sqErr s b pts ≤ sqErr s' b' pts

/- Concrete rows, entries and stores used by counterexamples and
witnesses. -/

/-- A well-formed snapshot row for district "NEW". -/
def rowNEW : Row :=
  { district_code := .vstr "NEW", district_name := .vstr "New District"
    state_name := .vstr "UTTAR PRADESH", month := "2024-01"
    employed := .vnum 1000, paymentSpeed := .vnum 50 }

/-- A well-formed snapshot row for district "OLD" (an earlier cycle). -/
def rowOLD : Row :=
  { district_code := .vstr "OLD", district_name := .vstr "Old District"
    state_name := .vstr "UTTAR PRADESH", month := "2023-12"
    employed := .vnum 2000, paymentSpeed := .vnum 60 }

/-- The store entry an earlier ingestion cycle produced for "OLD". -/
def entryOLD : Entry := { raw := rowOLD, historicalEmployed := List.replicate 6 2000 }

/-- A store left over from an earlier ingestion cycle. -/
def storeOLD : Store := [("OLD", entryOLD)]

/-- A row rejected by the validator (null district id). -/
def rowBad : Row :=
  { district_code := .vnull, district_name := .vstr "X"
    state_name := .vstr "UTTAR PRADESH", month := "2024-01"
    employed := .vnum 5, paymentSpeed := .vnum 5 }

/-- A row whose district name is the whitespace-only string " ". -/
def rowWS : Row :=
  { district_code := .vstr "D1", district_name := .vstr " "
    state_name := .vstr "UTTAR PRADESH", month := "2024-01"
    employed := .vnum 100, paymentSpeed := .vnum 50 }

/-- Store entry whose raw district name is whitespace-only. -/
def entryWS : Entry := { raw := rowWS, historicalEmployed := List.replicate 6 100 }

/-- One-district store with a whitespace-only district name. -/
def storeWS : Store := [("D1", entryWS)]

/-- A row with an ordinary non-blank district name. -/
def rowD2 : Row :=
  { district_code := .vstr "D2", district_name := .vstr "Alpha"
    state_name := .vstr "UTTAR PRADESH", month := "2024-02"
    employed := .vnum 100, paymentSpeed := .vnum 50 }

/-- Store entry with an ordinary district name. -/
def entryD2 : Entry := { raw := rowD2, historicalEmployed := List.replicate 6 100 }

/-- Flag block with the master switch off and every per-estimator flag on. -/
def mlMasterOff : MLFeatures :=
  { enabled := false, linearRegression := true, classification := true
    timeSeriesForecasting := true, anomalyDetection := true, clustering := true }

section AssocLemmas

variable {β γ : Type}

theorem hasKey_cons (p : String × β) (t : List (String × β)) (k : String) :
    hasKey (p :: t) k = (decide (p.1 = k) || hasKey t k) := rfl

theorem getKey_eq_none_iff {m : List (String × β)} {k : String} :
    getKey m k = none ↔ ∀ p ∈ m, p.1 ≠ k := by
  induction m with
  | nil => simp [getKey]
  | cons p t ih =>
      by_cases h : p.1 = k
      · simp [getKey, h]
      · simp [getKey, h, ih]

theorem hasKey_eq_false_iff {m : List (String × β)} {k : String} :
    hasKey m k = false ↔ ∀ p ∈ m, p.1 ≠ k := by
  induction m with
  | nil => simp [hasKey]
  | cons p t ih =>
      by_cases h : p.1 = k
      · simp [hasKey_cons, h]
      · simp [hasKey_cons, h, ih]

theorem getKey_mem {m : List (String × β)} {k : String} {v : β}
    (h : getKey m k = some v) : (k, v) ∈ m := by
  induction m with
  | nil => simp [getKey] at h
  | cons p t ih =>
      by_cases hp : p.1 = k
      · obtain ⟨pk, pv⟩ := p
        simp only [getKey] at h
        simp only at hp
        rw [if_pos hp] at h
        obtain rfl := hp
        obtain rfl : pv = v := by simpa using h
        exact List.mem_cons_self _ _
      · simp only [getKey, if_neg hp] at h
        exact List.mem_cons_of_mem _ (ih h)

theorem getKey_map_snd (m : List (String × β)) (f : β → γ) (k : String) :
    getKey (m.map (fun p => (p.1, f p.2))) k = (getKey m k).map f := by
  induction m with
  | nil => simp [getKey]
  | cons p t ih =>
      by_cases hp : p.1 = k
      · simp [getKey, hp]
      · simp [getKey, hp, ih]

theorem getKey_mapSet (m : List (String × β)) (k : String) (v : β) :
    getKey (m.map (fun p => if p.1 = k then (k, v) else p)) k
      = (getKey m k).map (fun _ => v) := by
  induction m with
  | nil => simp [getKey]
  | cons p t ih =>
      by_cases hp : p.1 = k
      · simp [getKey, hp]
      · simp [getKey, hp, ih]

theorem getKey_mapSet_ne (m : List (String × β)) (k k' : String) (v : β)
    (h : k' ≠ k) :
    getKey (m.map (fun p => if p.1 = k then (k, v) else p)) k' = getKey m k' := by
  induction m with
  | nil => simp [getKey]
  | cons p t ih =>
      by_cases hp : p.1 = k
      · have hp' : ¬ p.1 = k' := by rw [hp]; exact h.symm
        simp [getKey, hp, hp', h.symm, ih]
      · by_cases hpk' : p.1 = k'
        · simp [getKey, hp, hpk', h]
        · simp [getKey, hp, hpk', ih]

theorem getKey_append_of_none (m₁ m₂ : List (String × β)) (k : String)
    (h : getKey m₁ k = none) : getKey (m₁ ++ m₂) k = getKey m₂ k := by
  induction m₁ with
  | nil => simp
  | cons p t ih =>
      by_cases hp : p.1 = k
      · simp [getKey, hp] at h
      · simp only [getKey, if_neg hp] at h
        simpa [getKey, hp] using ih h

theorem getKey_singleton_ne (k k' : String) (v : β) (h : k' ≠ k) :
    getKey [(k, v)] k' = none := by
  simp [getKey, h.symm]

theorem getKey_append_singleton_ne (m : List (String × β)) (k k' : String)
    (v : β) (h : k' ≠ k) : getKey (m ++ [(k, v)]) k' = getKey m k' := by
  induction m with
  | nil => simpa using getKey_singleton_ne k k' v h
  | cons p t ih =>
      by_cases hp : p.1 = k'
      · simp [getKey, hp]
      · simpa [getKey, hp] using ih

theorem getKey_setKey_self (m : List (String × β)) (k : String) (v : β) :
    getKey (setKey m k v) k = some v := by
  unfold setKey
  by_cases h : hasKey m k
  · rw [if_pos h, getKey_mapSet]
    obtain ⟨w, hw⟩ : ∃ w, getKey m k = some w := by
      rcases ho : getKey m k with _ | w
      · have hf : hasKey m k = false :=
          hasKey_eq_false_iff.mpr (getKey_eq_none_iff.mp ho)
        rw [hf] at h
        exact absurd h (by simp)
      · exact ⟨w, rfl⟩
    rw [hw]; rfl
  · rw [if_neg h]
    have hn : getKey m k = none :=
      getKey_eq_none_iff.mpr (hasKey_eq_false_iff.mp (by simpa using h))
    rw [getKey_append_of_none m _ k hn]
    simp [getKey]

theorem getKey_setKey_ne (m : List (String × β)) (k k' : String) (v : β)
    (h : k' ≠ k) : getKey (setKey m k v) k' = getKey m k' := by
  unfold setKey
  by_cases hm : hasKey m k
  · rw [if_pos hm, getKey_mapSet_ne m k k' v h]
  · rw [if_neg hm, getKey_append_singleton_ne m k k' v h]

theorem getKey_putAll_not_mem (es : List (String × β)) (s : List (String × β))
    (k : String) (h : ∀ p ∈ es, p.1 ≠ k) :
    getKey (putAll s es) k = getKey s k := by
  induction es generalizing s with
  | nil => rfl
  | cons p t ih =>
      have hp : p.1 ≠ k := h p (List.mem_cons_self p t)
      have ht : ∀ q ∈ t, q.1 ≠ k := fun q hq => h q (List.mem_cons_of_mem p hq)
      show getKey (putAll (setKey s p.1 p.2) t) k = getKey s k
      rw [ih (setKey s p.1 p.2) ht, getKey_setKey_ne _ _ _ _ (fun hk => hp hk.symm)]

theorem getKey_putAll_some (es : List (String × β)) (s : List (String × β))
    (k : String) (v : β) (hnd : (es.map Prod.fst).Nodup)
    (h : getKey es k = some v) :
    getKey (putAll s es) k = some v := by
  induction es generalizing s with
  | nil => simp [getKey] at h
  | cons p t ih =>
      rw [List.map_cons, List.nodup_cons] at hnd
      by_cases hp : p.1 = k
      · have hv : p.2 = v := by
          simp only [getKey, if_pos hp] at h
          simpa using h
        have hk : ∀ q ∈ t, q.1 ≠ k := by
          intro q hq hqk
          exact hnd.1 (by rw [hp, ← hqk]; exact List.mem_map_of_mem Prod.fst hq)
        show getKey (putAll (setKey s p.1 p.2) t) k = some v
        rw [getKey_putAll_not_mem t _ k hk]
        obtain rfl := hp
        rw [getKey_setKey_self, hv]
      · have ht : getKey t k = some v := by simpa [getKey, hp] using h
        exact ih (setKey s p.1 p.2) hnd.2 ht

theorem getKey_putAll_none (es : List (String × β)) (s : List (String × β))
    (k : String) (h : getKey es k = none) :
    getKey (putAll s es) k = getKey s k :=
  getKey_putAll_not_mem es s k (getKey_eq_none_iff.mp h)

end AssocLemmas

section IdempotenceLemmas

variable {β : Type}

/-- Every pair of the map carrying key k carries exactly the value v. -/
def KeyAll (m : List (String × β)) (k : String) (v : β) : Prop :=
  ∀ p ∈ m, p.1 = k → p = (k, v)

theorem keyAll_setKey_self (m : List (String × β)) (k : String) (v : β) :
    KeyAll (setKey m k v) k v := by
  unfold setKey
  by_cases h : hasKey m k
  · rw [if_pos h]
    intro p hp hpk
    rcases List.mem_map.mp hp with ⟨q, _, hq⟩
    by_cases hqk : q.1 = k
    · rw [if_pos hqk] at hq; exact hq.symm
    · rw [if_neg hqk] at hq
      subst hq
      exact absurd hpk hqk
  · rw [if_neg h]
    intro p hp hpk
    rcases List.mem_append.mp hp with hm | hs
    · exact absurd hpk (hasKey_eq_false_iff.mp (by simpa using h) p hm)
    · simpa using hs

theorem hasKey_setKey_self (m : List (String × β)) (k : String) (v : β) :
    hasKey (setKey m k v) k = true := by
  rcases ho : getKey (setKey m k v) k with _ | w
  · rw [getKey_setKey_self] at ho; cases ho
  · rcases hf : hasKey (setKey m k v) k with _ | _
    · have := getKey_eq_none_iff.mpr (hasKey_eq_false_iff.mp hf)
      rw [getKey_setKey_self] at this; cases this
    · rfl

theorem hasKey_setKey_mono (m : List (String × β)) (k k' : String) (v' : β)
    (h : hasKey m k = true) : hasKey (setKey m k' v') k = true := by
  by_cases hk : k = k'
  · subst hk; exact hasKey_setKey_self m k v'
  · rcases ho : getKey (setKey m k' v') k with _ | w
    · rw [getKey_setKey_ne m k' k v' hk] at ho
      have := hasKey_eq_false_iff.mpr (getKey_eq_none_iff.mp ho)
      rw [this] at h; cases h
    · rcases hf : hasKey (setKey m k' v') k with _ | _
      · have := getKey_eq_none_iff.mpr (hasKey_eq_false_iff.mp hf)
        rw [this] at ho; cases ho
      · rfl

theorem keyAll_setKey_ne (m : List (String × β)) (k k' : String) (v : β) (v' : β)
    (hk : k ≠ k') (h : KeyAll m k v) : KeyAll (setKey m k' v') k v := by
  unfold setKey
  by_cases hm : hasKey m k'
  · rw [if_pos hm]
    intro p hp hpk
    rcases List.mem_map.mp hp with ⟨q, hqm, hq⟩
    by_cases hqk : q.1 = k'
    · subst hq
      simp only [if_pos hqk] at hpk ⊢
      exact absurd hpk.symm hk
    · rw [if_neg hqk] at hq
      subst hq
      exact h q hqm hpk
  · rw [if_neg hm]
    intro p hp hpk
    rcases List.mem_append.mp hp with hm' | hs
    · exact h p hm' hpk
    · have : p = (k', v') := by simpa using hs
      subst this
      exact absurd hpk hk.symm

theorem setKey_eq_self (m : List (String × β)) (k : String) (v : β)
    (h1 : hasKey m k = true) (h2 : KeyAll m k v) : setKey m k v = m := by
  unfold setKey
  rw [if_pos h1]
  conv_rhs => rw [← List.map_id m]
  apply List.map_congr_left
  intro p hp
  by_cases hpk : p.1 = k
  · rw [if_pos hpk]; exact (h2 p hp hpk).symm
  · rw [if_neg hpk]; rfl

theorem putAll_preserve (es : List (String × β)) (s : List (String × β))
    (k : String) (v : β) (hne : ∀ p ∈ es, p.1 ≠ k)
    (h1 : hasKey s k = true) (h2 : KeyAll s k v) :
    hasKey (putAll s es) k = true ∧ KeyAll (putAll s es) k v := by
  induction es generalizing s with
  | nil => exact ⟨h1, h2⟩
  | cons p t ih =>
      have hp : p.1 ≠ k := hne p (List.mem_cons_self p t)
      have ht : ∀ q ∈ t, q.1 ≠ k := fun q hq => hne q (List.mem_cons_of_mem p hq)
      show hasKey (putAll (setKey s p.1 p.2) t) k = true ∧ _
      exact ih (setKey s p.1 p.2) ht (hasKey_setKey_mono s k p.1 p.2 h1)
        (keyAll_setKey_ne s k p.1 v p.2 (fun hk => hp hk.symm) h2)

theorem putAll_establishes (es : List (String × β)) (s : List (String × β))
    (hnd : (es.map Prod.fst).Nodup) :
    ∀ p ∈ es, hasKey (putAll s es) p.1 = true ∧ KeyAll (putAll s es) p.1 p.2 := by
  induction es generalizing s with
  | nil => intro p hp; cases hp
  | cons q t ih =>
      rw [List.map_cons, List.nodup_cons] at hnd
      intro p hp
      rcases List.mem_cons.mp hp with rfl | hpt
      · have ht : ∀ r ∈ t, r.1 ≠ p.1 := by
          intro r hr hrk
          exact hnd.1 (hrk ▸ List.mem_map_of_mem Prod.fst hr)
        show hasKey (putAll (setKey s p.1 p.2) t) p.1 = true ∧ _
        exact putAll_preserve t (setKey s p.1 p.2) p.1 p.2 ht
          (hasKey_setKey_self s p.1 p.2) (keyAll_setKey_self s p.1 p.2)
      · exact ih (setKey s q.1 q.2) hnd.2 p hpt

theorem putAll_fix (es : List (String × β)) (s : List (String × β))
    (h : ∀ p ∈ es, hasKey s p.1 = true ∧ KeyAll s p.1 p.2) :
    putAll s es = s := by
  induction es with
  | nil => rfl
  | cons p t ih =>
      have hp := h p (List.mem_cons_self p t)
      have heq : setKey s p.1 p.2 = s := setKey_eq_self s p.1 p.2 hp.1 hp.2
      show putAll (setKey s p.1 p.2) t = s
      rw [heq]
      exact ih (fun q hq => h q (List.mem_cons_of_mem p hq))

theorem putAll_idem (es : List (String × β)) (s : List (String × β))
    (hnd : (es.map Prod.fst).Nodup) :
    putAll (putAll s es) es = putAll s es :=
  putAll_fix es (putAll s es) (putAll_establishes es s hnd)

end IdempotenceLemmas

section LoaderLemmas

theorem keys_pushGroup (m : List (String × List Row)) (k : String) (r : Row) :
    (pushGroup m k r).map Prod.fst
      = if hasKey m k then m.map Prod.fst else m.map Prod.fst ++ [k] := by
  unfold pushGroup
  by_cases h : hasKey m k
  · rw [if_pos h, if_pos h, List.map_map]
    apply List.map_congr_left
    intro p _
    by_cases hp : p.1 = k
    · simp [hp]
    · simp [hp]
  · rw [if_neg h, if_neg h]
    simp

theorem groups_aux_nodup (data : List Row) (m : List (String × List Row))
    (hnd : (m.map Prod.fst).Nodup) :
    ((data.foldl
      (fun m r =>
        if validateDistrictData r then pushGroup m (keyOf r.district_code) r else m)
      m).map Prod.fst).Nodup := by
  induction data generalizing m with
  | nil => exact hnd
  | cons r t ih =>
      apply ih
      by_cases hv : validateDistrictData r
      · simp only [hv, if_pos]
        rw [keys_pushGroup]
        by_cases hk : hasKey m (keyOf r.district_code)
        · rw [if_pos hk]; exact hnd
        · rw [if_neg hk]
          refine List.Nodup.append hnd (List.nodup_singleton _) ?_
          intro a ha hb
          rcases List.mem_singleton.mp hb with rfl
          rcases List.mem_map.mp ha with ⟨p, hp, hpk⟩
          exact hasKey_eq_false_iff.mp (by simpa using hk) p hp hpk
      · simpa [hv] using hnd

theorem keys_groupRows_nodup (data : List Row) :
    ((groupRows data).map Prod.fst).Nodup :=
  groups_aux_nodup data [] (by simp)

theorem keys_buildEntries_nodup (data : List Row) :
    ((buildEntries data).map Prod.fst).Nodup := by
  have h : (buildEntries data).map Prod.fst = (groupRows data).map Prod.fst := by
    unfold buildEntries
    rw [List.map_map]
    rfl
  rw [h]
  exact keys_groupRows_nodup data

theorem groups_aux_nonempty (data : List Row) (m : List (String × List Row))
    (hne : ∀ p ∈ m, p.2 ≠ []) :
    ∀ p ∈ (data.foldl
      (fun m r =>
        if validateDistrictData r then pushGroup m (keyOf r.district_code) r else m)
      m), p.2 ≠ [] := by
  induction data generalizing m with
  | nil => exact hne
  | cons r t ih =>
      apply ih
      by_cases hv : validateDistrictData r
      · simp only [hv, if_pos]
        unfold pushGroup
        by_cases hk : hasKey m (keyOf r.district_code)
        · rw [if_pos hk]
          intro p hp
          rcases List.mem_map.mp hp with ⟨q, hq, hpq⟩
          by_cases hqk : q.1 = keyOf r.district_code
          · rw [if_pos hqk] at hpq
            subst hpq
            simp
          · rw [if_neg hqk] at hpq
            subst hpq
            exact hne q hq
        · rw [if_neg hk]
          intro p hp
          rcases List.mem_append.mp hp with hm | hs
          · exact hne p hm
          · have : p = (keyOf r.district_code, [r]) := by simpa using hs
            subst this
            simp
      · simpa [hv] using hne

theorem groups_nonempty (data : List Row) :
    ∀ p ∈ groupRows data, p.2 ≠ [] :=
  groups_aux_nonempty data [] (by simp)

theorem length_insertDescByMonth (r : Row) (l : List Row) :
    (insertDescByMonth r l).length = l.length + 1 := by
  induction l with
  | nil => rfl
  | cons y ys ih =>
      unfold insertDescByMonth
      by_cases h : y.month < r.month
      · rw [if_pos h]; rfl
      · rw [if_neg h]
        simp [ih]

theorem length_sort_aux (l : List Row) (acc : List Row) :
    (l.foldl (fun acc r => insertDescByMonth r acc) acc).length
      = acc.length + l.length := by
  induction l generalizing acc with
  | nil => simp
  | cons r t ih =>
      show (t.foldl _ (insertDescByMonth r acc)).length = acc.length + (t.length + 1)
      rw [ih (insertDescByMonth r acc), length_insertDescByMonth]
      omega

theorem length_sortByMonthDesc (l : List Row) :
    (sortByMonthDesc l).length = l.length := by
  unfold sortByMonthDesc
  rw [length_sort_aux l []]
  simp

theorem sortByMonthDesc_ne_nil (l : List Row) (h : l ≠ []) :
    sortByMonthDesc l ≠ [] := by
  intro hs
  apply h
  have := length_sortByMonthDesc l
  rw [hs] at this
  exact List.length_eq_zero.mp this.symm

theorem getKey_buildEntries (data : List Row) (k : String) :
    getKey (buildEntries data) k = (getKey (groupRows data) k).map mkEntry := by
  unfold buildEntries
  exact getKey_map_snd (groupRows data) mkEntry k

end LoaderLemmas

section EntryLemmas

theorem mkEntry_eq (g : List Row) (s0 : Row) (rest : List Row)
    (hsr : sortByMonthDesc g = s0 :: rest) :
    mkEntry g =
      { raw := s0
        historicalEmployed :=
          (parseNumericSafe s0.employed 0 ::
              (rest.take 5).map (fun r => parseNumericSafe r.employed 0))
            ++ List.replicate (6 - ((rest.take 5).length + 1))
                (parseNumericSafe s0.employed 0) } := by
  unfold mkEntry
  rw [hsr]
  simp [List.take_succ_cons]

theorem sortByMonthDesc_singleton (r : Row) : sortByMonthDesc [r] = [r] := rfl

theorem mem_insertDescByMonth {x r : Row} {l : List Row}
    (h : x ∈ insertDescByMonth r l) : x = r ∨ x ∈ l := by
  induction l with
  | nil => simpa [insertDescByMonth] using h
  | cons y ys ih =>
      unfold insertDescByMonth at h
      by_cases hc : y.month < r.month
      · rw [if_pos hc] at h
        rcases List.mem_cons.mp h with rfl | h2
        · exact Or.inl rfl
        · exact Or.inr h2
      · rw [if_neg hc] at h
        rcases List.mem_cons.mp h with rfl | h2
        · exact Or.inr (List.mem_cons_self _ _)
        · rcases ih h2 with rfl | h3
          · exact Or.inl rfl
          · exact Or.inr (List.mem_cons_of_mem _ h3)

theorem mem_sort_aux (l : List Row) (acc : List Row) (x : Row)
    (h : x ∈ l.foldl (fun acc r => insertDescByMonth r acc) acc) :
    x ∈ acc ∨ x ∈ l := by
  induction l generalizing acc with
  | nil => exact Or.inl h
  | cons r t ih =>
      rcases ih (insertDescByMonth r acc) h with h1 | h2
      · rcases mem_insertDescByMonth h1 with rfl | h3
        · exact Or.inr (List.mem_cons_self _ _)
        · exact Or.inl h3
      · exact Or.inr (List.mem_cons_of_mem _ h2)

theorem mem_sortByMonthDesc (l : List Row) (x : Row)
    (h : x ∈ sortByMonthDesc l) : x ∈ l := by
  rcases mem_sort_aux l [] x h with h1 | h2
  · cases h1
  · exact h2

theorem map_eq_replicate_zero {α : Type} (f : α → ℚ) (l : List α)
    (h : ∀ x ∈ l, f x = 0) : l.map f = List.replicate l.length 0 := by
  induction l with
  | nil => rfl
  | cons a t ih =>
      rw [List.map_cons, h a (List.mem_cons_self a t), List.length_cons,
        List.replicate_succ, ih (fun x hx => h x (List.mem_cons_of_mem a hx))]

end EntryLemmas

/-- Claim C1 (counterexample): on an empty snapshot the published
completeness score is the JS float NaN (modelled `none`), not the
numeric value 0 the claim requires — the 0/0 division is unguarded
(server.js:329). -/
theorem c1_counterexample :
    (rebuild ([] : Store) ([] : List Row)).2.completenessScore = none
    ∧ (none : Option ℚ) ≠ some 0 :=
  ⟨rfl, by simp⟩

/-- Claim C1 (amended): for a non-empty snapshot of N rows of which M
are accepted the published completenessScore equals 100·M/N; rebuilding
with an empty snapshot leaves the store unchanged (so the listing is
empty only when it was empty before) and publishes zero counters with a
completenessScore of NaN (no numeric value), and never throws. -/
theorem c1_completeness_amended (store : Store) (data : List Row) :
    (data ≠ [] →
      (rebuild store data).2.completenessScore
        = some (100 * (countValid data : ℚ) / (data.length : ℚ)))
    ∧ (rebuild store []).2
        = { totalRows := 0, validRows := 0, invalidRows := 0
            skippedDistricts := 0, completenessScore := none }
    ∧ (rebuild store []).1 = store := by
  refine ⟨?_, rfl, rfl⟩
  intro h
  have hn : data.length ≠ 0 := fun hl => h (List.length_eq_zero.mp hl)
  show (computeMetrics data).completenessScore = _
  unfold computeMetrics
  simp only [if_neg hn]
  congr 1
  ring

/-- Witness for C1: a two-row snapshot with one accepted row publishes
the score given by the amended formula. -/
theorem c1_witness :
    (rebuild ([] : Store) [rowNEW, rowBad]).2.completenessScore
      = some (100 * (countValid [rowNEW, rowBad] : ℚ)
          / (([rowNEW, rowBad] : List Row).length : ℚ)) :=
  (c1_completeness_amended [] [rowNEW, rowBad]).1 (by simp)

/-- Claim C2 (counterexample): rebuilding over a store holding district
"OLD" with a snapshot containing only district "NEW" leaves the "OLD"
entry of the earlier cycle in place — the store is upserted, not
replaced, so it does not map exactly the snapshot's district ids. -/
theorem c2_counterexample :
    ((rebuild storeOLD [rowNEW]).1).map Prod.fst = ["OLD", "NEW"]
    ∧ getKey (rebuild storeOLD [rowNEW]).1 "OLD" = some entryOLD := by
  constructor
  · decide
  · decide

/-- Claim C2 (amended): rebuild upserts per district: every district id
grouped from the snapshot's accepted rows afterwards maps to the entry
built from its group, while a district id absent from the snapshot
keeps exactly the mapping it had before (entries of earlier cycles
persist).  The store mutation itself runs as one synchronous loop, so
request handlers only ever observe it between cycles. -/
theorem c2_rebuild_amended (store : Store) (data : List Row) (id : String) :
    (∀ g : List Row, getKey (groupRows data) id = some g →
        getKey (rebuild store data).1 id = some (mkEntry g))
    ∧ (getKey (groupRows data) id = none →
        getKey (rebuild store data).1 id = getKey store id) := by
  constructor
  · intro g hg
    show getKey (putAll store (buildEntries data)) id = _
    apply getKey_putAll_some _ _ _ _ (keys_buildEntries_nodup data)
    rw [getKey_buildEntries, hg]
    rfl
  · intro hg
    show getKey (putAll store (buildEntries data)) id = _
    apply getKey_putAll_none
    rw [getKey_buildEntries, hg]
    rfl

/-- Witness for C2: the snapshot district "NEW" maps to its freshly
built entry after the rebuild. -/
theorem c2_witness :
    getKey (rebuild storeOLD [rowNEW]).1 "NEW" = some (mkEntry [rowNEW]) :=
  (c2_rebuild_amended storeOLD [rowNEW] "NEW").1 [rowNEW] (by decide)

/-- Claim C3 (counterexample): for value 100 against the constant
history [10,10,10,10,10,10] (population standard deviation zero) the
code returns true — the z-score divides by zero giving JS Infinity,
which exceeds the threshold 2 — not the "not anomalous" the claim
requires. -/
theorem c3_counterexample :
    detectAnomaly mlOn 100 [10, 10, 10, 10, 10, 10] = true := by
  norm_num [detectAnomaly, mlOn]

/-- Claim C3 (amended): when the (non-empty) history has zero population
standard deviation, anomaly detection never raises, and returns true
exactly when the queried value differs from the constant history value
(JS yields Infinity > 2 then, and NaN > 2, i.e. false, when the value
equals it); in particular value 100 against [10,10,10,10,10,10] is
reported anomalous. -/
theorem c3_anomaly_amended (v c : ℚ) (n : ℕ) (hn : 0 < n) :
    detectAnomaly mlOn v (List.replicate n c) = decide (v ≠ c) := by
  obtain ⟨m, rfl⟩ := Nat.exists_eq_succ_of_ne_zero hn.ne'
  rw [List.replicate_succ]
  show detectAnomaly mlOn v (c :: List.replicate m c) = _
  unfold detectAnomaly
  have hlen : (((c :: List.replicate m c).length : ℕ) : ℚ) = ((m : ℚ) + 1) := by
    simp
  have hsum : (c :: List.replicate m c).sum = ((m : ℚ) + 1) * c := by
    simp [List.sum_replicate, nsmul_eq_mul]
    ring
  have hmean : (c :: List.replicate m c).sum / (((c :: List.replicate m c).length : ℕ) : ℚ) = c := by
    rw [hsum, hlen, mul_div_cancel_left₀]
    positivity
  simp only [mlOn, Bool.and_self, if_true]
  rw [hmean]
  have hvar : ((c :: List.replicate m c).map (fun x => (x - c) ^ 2)).sum
      / (((c :: List.replicate m c).length : ℕ) : ℚ) = 0 := by
    simp [List.map_replicate, List.sum_replicate]
  rw [hvar, if_pos rfl]

/-- Witness for C3: the amended statement applied at value 100 and
history of six tens. -/
theorem c3_witness :
    detectAnomaly mlOn 100 (List.replicate 6 10) = decide ((100 : ℚ) ≠ 10) :=
  c3_anomaly_amended 100 10 6 (by norm_num)

/-- Claim C5: every district entry built by an ingestion cycle has a
history of length exactly 6; its first element is the safely parsed
employment metric of the entry's latest raw row; for every district,
whatever its number of source periods, the history is the parsed
metrics of the up-to-six most recent periods followed by the latest
record's parsed metric (the most recent known value, i.e. history[0])
repeated in every remaining slot; a district none of whose rows carries
a parsable metric gets all zeros; and a district with a single source
row gets that row's parsed value repeated six times. -/
theorem c5_history (data : List Row) (id : String) (e : Entry)
    (h : getKey (buildEntries data) id = some e) :
    e.historicalEmployed.length = 6
    ∧ e.historicalEmployed.head? = some (parseNumericSafe e.raw.employed 0)
    ∧ (∀ g : List Row, getKey (groupRows data) id = some g →
        e.historicalEmployed
          = ((sortByMonthDesc g).take 6).map (fun r => parseNumericSafe r.employed 0)
            ++ List.replicate (6 - min 6 g.length) (parseNumericSafe e.raw.employed 0))
    ∧ (∀ g : List Row, getKey (groupRows data) id = some g →
        (∀ r ∈ g, parseNumericSafe r.employed 0 = 0) →
        e.historicalEmployed = List.replicate 6 0)
    ∧ (∀ r : Row, getKey (groupRows data) id = some [r] →
        e.historicalEmployed = List.replicate 6 (parseNumericSafe r.employed 0)
        ∧ e.raw = r) := by
  rw [getKey_buildEntries] at h
  rcases hg : getKey (groupRows data) id with _ | g₀
  · rw [hg] at h; cases h
  · rw [hg] at h
    have he : mkEntry g₀ = e := by simpa using h
    subst he
    have hgne : g₀ ≠ [] := groups_nonempty data _ (getKey_mem hg)
    have hs : sortByMonthDesc g₀ ≠ [] := sortByMonthDesc_ne_nil g₀ hgne
    obtain ⟨s0, rest, hsr⟩ := List.exists_cons_of_ne_nil hs
    have hlg : g₀.length = rest.length + 1 := by
      have hlen := length_sortByMonthDesc g₀
      rw [hsr] at hlen
      simpa using hlen.symm
    have hL : (rest.take 5).length = min 5 rest.length := List.length_take 5 rest
    rw [mkEntry_eq g₀ s0 rest hsr]
    refine ⟨?_, ?_, ?_, ?_, ?_⟩
    · simp only [List.length_append, List.length_cons, List.length_map,
        List.length_replicate]
      omega
    · simp
    · intro g hgg
      have hgeq : g₀ = g := by simpa using hgg
      subst hgeq
      simp only [hsr, List.take_succ_cons, List.map_cons]
      have hcount : 6 - ((rest.take 5).length + 1) = 6 - min 6 g₀.length := by
        rw [hL, hlg]
        omega
      rw [hcount]
    · intro g hgg hz
      have hgeq : g₀ = g := by simpa using hgg
      subst hgeq
      have hz0 : parseNumericSafe s0.employed 0 = 0 :=
        hz s0 (mem_sortByMonthDesc g₀ s0 (by rw [hsr]; exact List.mem_cons_self _ _))
      have hzr : ∀ x ∈ rest.take 5, parseNumericSafe x.employed 0 = 0 := by
        intro x hx
        apply hz
        apply mem_sortByMonthDesc g₀
        rw [hsr]
        exact List.mem_cons_of_mem _ (List.take_subset 5 rest hx)
      show (parseNumericSafe s0.employed 0 :: (rest.take 5).map _) ++ _ = _
      rw [hz0, map_eq_replicate_zero _ _ hzr, List.cons_append,
        ← List.replicate_add]
      have hsum : (rest.take 5).length + (6 - ((rest.take 5).length + 1)) = 5 := by
        rw [hL]
        omega
      rw [hsum]
      rfl
    · intro r hr
      have hgr : g₀ = [r] := by simpa using hr
      subst hgr
      rw [sortByMonthDesc_singleton] at hsr
      injection hsr with h1 h2
      subst h1
      subst h2
      constructor
      · show (parseNumericSafe r.employed 0 :: List.map _ []) ++ _ = _
        simp [List.replicate_succ]
      · rfl

/-- Witness for C5: the entry of a single-row snapshot. -/
theorem c5_witness :
    (mkEntry [rowNEW]).historicalEmployed.length = 6 :=
  (c5_history [rowNEW] "NEW" (mkEntry [rowNEW]) (by decide)).1

/-- Claim C6: the forecaster is exponential smoothing with fixed
alpha = 3/10, seeded with the first (oldest, reading the series
chronologically) history value, blending across the remaining values in
order, clamped to be non-negative; every constant non-negative history
forecasts its constant, and [5,5,5,5,5,5] forecasts exactly 5. -/
theorem c6_forecast :
    (∀ (h : List ℚ) (q : ℚ), forecastTimeSeries mlOn h = some q → 0 ≤ q)
    ∧ (∀ (h0 : ℚ) (t : List ℚ),
        forecastTimeSeries mlOn (h0 :: t)
          = some (max 0 (t.foldl (fun s a => (3 / 10 : ℚ) * a + (1 - 3 / 10) * s) h0)))
    ∧ (∀ (c : ℚ) (n : ℕ), 0 ≤ c →
        forecastTimeSeries mlOn (List.replicate (n + 1) c) = some c)
    ∧ forecastTimeSeries mlOn [5, 5, 5, 5, 5, 5] = some 5 := by
  have hconst : ∀ (c : ℚ) (n : ℕ),
      (List.replicate n c).foldl (fun s a => (3 / 10 : ℚ) * a + (1 - 3 / 10) * s) c = c := by
    intro c n
    induction n with
    | zero => rfl
    | succ m ih =>
        rw [List.replicate_succ, List.foldl_cons]
        have hb : (3 / 10 : ℚ) * c + (1 - 3 / 10) * c = c := by ring
        rw [hb, ih]
  refine ⟨?_, ?_, ?_, ?_⟩
  · intro h q hq
    cases h with
    | nil => simp [forecastTimeSeries, mlOn] at hq
    | cons h0 t =>
        have : max 0 (t.foldl (fun s a => (3 / 10 : ℚ) * a + (1 - 3 / 10) * s) h0) = q := by
          simpa [forecastTimeSeries, mlOn] using hq
        exact this ▸ le_max_left 0 _
  · intro h0 t
    rfl
  · intro c n hc
    rw [List.replicate_succ]
    show some (max 0 _) = _
    rw [hconst c n, max_eq_right hc]
  · norm_num [forecastTimeSeries, mlOn]

/-- Witness for C6: the constant-history clause applied to six fives. -/
theorem c6_witness :
    forecastTimeSeries mlOn (List.replicate 6 (5 : ℚ)) = some 5 :=
  c6_forecast.2.2.1 5 5 (by norm_num)

/-- Helper: evaluate the two-decimal formatter once its scaled argument
is known to be an integer. -/
theorem toFixed2_of_eq (q : ℚ) (n : ℤ) (h : q * 100 = (n : ℚ)) :
    toFixed2 q = toString (n / 100) ++ "." ++
      (if n % 100 < 10 then "0" else "") ++ toString (n % 100) := by
  simp only [toFixed2, h, round_intCast]

/-- Claim C7: the magnitude formatter renders values at or above 100000
as value/100000 to two decimals suffixed " Lakh", values in
[1000, 100000) as value/1000 to two decimals suffixed " Thousand", and
integer values below 1000 as the plain integer string; concretely
145000 gives "1.45 Lakh", 1500 gives "1.50 Thousand", 500 gives "500". -/
theorem c7_format :
    (∀ v : ℚ, 100000 ≤ v →
        AnalysisRules.peopleEmployed v = toFixed2 (v / 100000) ++ " Lakh")
    ∧ (∀ v : ℚ, 1000 ≤ v → v < 100000 →
        AnalysisRules.peopleEmployed v = toFixed2 (v / 1000) ++ " Thousand")
    ∧ (∀ (k : ℤ) (v : ℚ), v = (k : ℚ) → v < 1000 →
        AnalysisRules.peopleEmployed v = toString k)
    ∧ AnalysisRules.peopleEmployed 145000 = "1.45 Lakh"
    ∧ AnalysisRules.peopleEmployed 1500 = "1.50 Thousand"
    ∧ AnalysisRules.peopleEmployed 500 = "500" := by
  refine ⟨?_, ?_, ?_, ?_, ?_, ?_⟩
  · intro v hv
    unfold AnalysisRules.peopleEmployed
    rw [if_pos hv]
  · intro v h1 h2
    unfold AnalysisRules.peopleEmployed
    rw [if_neg (not_le.mpr h2), if_pos h1]
  · intro k v hv hlt
    subst hv
    unfold AnalysisRules.peopleEmployed
    rw [if_neg (not_le.mpr (lt_trans hlt (by norm_num))), if_neg (not_le.mpr hlt)]
    simp [ratToString, Rat.den_intCast, Rat.num_intCast]
  · unfold AnalysisRules.peopleEmployed
    rw [if_pos (by norm_num : (100000 : ℚ) ≤ 145000),
      toFixed2_of_eq (145000 / 100000) 145 (by norm_num)]
    decide
  · unfold AnalysisRules.peopleEmployed
    rw [if_neg (by norm_num : ¬ (100000 : ℚ) ≤ 1500),
      if_pos (by norm_num : (1000 : ℚ) ≤ 1500),
      toFixed2_of_eq (1500 / 1000) 150 (by norm_num)]
    decide
  · unfold AnalysisRules.peopleEmployed
    rw [if_neg (by norm_num : ¬ (100000 : ℚ) ≤ 500),
      if_neg (by norm_num : ¬ (1000 : ℚ) ≤ 500)]
    rw [show (500 : ℚ) = ((500 : ℤ) : ℚ) by norm_num]
    simp only [ratToString, Rat.den_intCast, Rat.num_intCast]
    decide

/-- Witness for C7: the integer branch applied at 745. -/
theorem c7_witness :
    AnalysisRules.peopleEmployed (745 : ℚ) = toString (745 : ℤ) :=
  c7_format.2.2.1 745 745 (by norm_num) (by norm_num)

/-- Claim C8: running the rebuild twice in succession with the same
snapshot is idempotent — the second run leaves both the district store
(including its key order) and the quality metrics exactly as the first
run produced them. -/
theorem c8_idempotent (store : Store) (data : List Row) :
    rebuild (rebuild store data).1 data = rebuild store data := by
  show (putAll (putAll store (buildEntries data)) (buildEntries data),
      computeMetrics data) = (putAll store (buildEntries data), computeMetrics data)
  rw [putAll_idem (buildEntries data) store (keys_buildEntries_nodup data)]

/-- Claim C9: with the master flag off or the estimator's own flag off,
each of the five estimators returns its no-result value (null for the
three value estimators, false for anomaly detection, the empty object
for clustering) for every input, without running its computation. -/
theorem c9_flag_gating (flags : MLFeatures) :
    (∀ hist : List ℚ, (flags.enabled && flags.linearRegression) = false →
        predictEmploymentMissing flags hist = none)
    ∧ (∀ (emp : ℚ) (hist : List ℚ), (flags.enabled && flags.classification) = false →
        classifyPaymentSpeed flags emp hist = none)
    ∧ (∀ hist : List ℚ, (flags.enabled && flags.timeSeriesForecasting) = false →
        forecastTimeSeries flags hist = none)
    ∧ (∀ (v : ℚ) (hist : List ℚ), (flags.enabled && flags.anomalyDetection) = false →
        detectAnomaly flags v hist = false)
    ∧ (∀ ds : List DistrictPoint, (flags.enabled && flags.clustering) = false →
        clusterDistricts flags ds = []) := by
  refine ⟨?_, ?_, ?_, ?_, ?_⟩
  · intro hist h; simp [predictEmploymentMissing, h]
  · intro emp hist h; simp [classifyPaymentSpeed, h]
  · intro hist h; simp [forecastTimeSeries, h]
  · intro v hist h; simp [detectAnomaly, h]
  · intro ds h; simp [clusterDistricts, h]

/-- Witness for C9: with the master switch off every estimator returns
its no-result value on concrete inputs. -/
theorem c9_witness :
    predictEmploymentMissing mlMasterOff [10, 20, 30] = none
    ∧ classifyPaymentSpeed mlMasterOff 100 [10, 20, 30] = none
    ∧ forecastTimeSeries mlMasterOff [10, 20, 30] = none
    ∧ detectAnomaly mlMasterOff 100 [10, 20, 30] = false
    ∧ clusterDistricts mlMasterOff [] = [] :=
  ⟨(c9_flag_gating mlMasterOff).1 [10, 20, 30] (by decide),
    (c9_flag_gating mlMasterOff).2.1 100 [10, 20, 30] (by decide),
    (c9_flag_gating mlMasterOff).2.2.1 [10, 20, 30] (by decide),
    (c9_flag_gating mlMasterOff).2.2.2.1 100 [10, 20, 30] (by decide),
    (c9_flag_gating mlMasterOff).2.2.2.2 [] (by decide)⟩

/-- Claim C10 (counterexample): a stored district whose raw
district_name is the whitespace-only string " " — a non-empty string —
is listed under its district id "D1", not under " ": the display-name
condition is trim-non-emptiness, not mere non-emptiness. -/
theorem c10_counterexample :
    listDistricts storeWS = [("D1", "D1")] ∧ (" " : String) ≠ "" := by
  constructor
  · decide
  · decide

/-- Claim C10 (amended): the listing returns exactly the stored
districts whose latest raw row has state_name equal to the hard-coded
string "UTTAR PRADESH" (the filter is not caller-supplied — the
operation takes no filter argument), and the display name is the raw
district_name when that is a string that is non-empty after trimming
whitespace, otherwise the district id. -/
theorem c10_districts_amended (store : Store) (id name : String) :
    (id, name) ∈ listDistricts store ↔
      ∃ e : Entry, (id, e) ∈ store
        ∧ e.raw.state_name = JsVal.vstr "UTTAR PRADESH"
        ∧ name
          = (if isValidString e.raw.district_name then strOf e.raw.district_name
              else id) := by
  unfold listDistricts
  constructor
  · intro hm
    rcases List.mem_map.mp hm with ⟨p, hpf, hpe⟩
    rcases List.mem_filter.mp hpf with ⟨hps, hcond⟩
    have hstate : p.2.raw.state_name = JsVal.vstr "UTTAR PRADESH" := by
      simpa using hcond
    obtain ⟨pid, pe⟩ := p
    obtain ⟨h1, h2⟩ := Prod.mk.injEq .. |>.mp hpe
    subst h1
    exact ⟨pe, hps, hstate, h2.symm⟩
  · rintro ⟨e, hmem, hstate, hname⟩
    apply List.mem_map.mpr
    refine ⟨(id, e), List.mem_filter.mpr ⟨hmem, by simpa using hstate⟩, ?_⟩
    simp [hname]

/-- Witness for C10: a district with a normal name is listed under that
name. -/
theorem c10_witness :
    ("D2", "Alpha") ∈ listDistricts [("D2", entryD2)] :=
  (c10_districts_amended [("D2", entryD2)] "D2" "Alpha").mpr
    ⟨entryD2, by decide, by decide, by decide⟩

section OLSLemmas

theorem sqErr_expand (s b s' b' : ℚ) (pts : List (ℚ × ℚ)) :
    sqErr s' b' pts
      = sqErr s b pts
        + 2 * (s' - s) * (pts.map (fun p => (s * p.1 + b - p.2) * p.1)).sum
        + 2 * (b' - b) * (pts.map (fun p => s * p.1 + b - p.2)).sum
        + (pts.map (fun p => ((s' - s) * p.1 + (b' - b)) ^ 2)).sum := by
  induction pts with
  | nil => simp [sqErr]
  | cons p t ih =>
      simp only [sqErr, List.map_cons, List.sum_cons] at ih ⊢
      linear_combination ih

theorem isOLSFit_of_normal (s b : ℚ) (pts : List (ℚ × ℚ))
    (h1 : (pts.map (fun p => (s * p.1 + b - p.2) * p.1)).sum = 0)
    (h2 : (pts.map (fun p => s * p.1 + b - p.2)).sum = 0) :
    IsOLSFit s b pts := by
  intro s' b'
  rw [sqErr_expand s b s' b' pts, h1, h2]
  have hnn : 0 ≤ (pts.map (fun p => ((s' - s) * p.1 + (b' - b)) ^ 2)).sum := by
    apply List.sum_nonneg
    intro x hx
    rcases List.mem_map.mp hx with ⟨p, _, rfl⟩
    positivity
  linarith

theorem zip_sum_linear (xs ys : List ℚ) (s b : ℚ) (hlen : xs.length = ys.length) :
    ((xs.zip ys).map (fun p => s * p.1 + b - p.2)).sum
      = s * xs.sum + b * (xs.length : ℚ) - ys.sum := by
  induction xs generalizing ys with
  | nil =>
      cases ys with
      | nil => simp
      | cons y yt => simp at hlen
  | cons x xt ih =>
      cases ys with
      | nil => simp at hlen
      | cons y yt =>
          simp only [List.length_cons, Nat.add_right_cancel_iff] at hlen
          simp only [List.zip_cons_cons, List.map_cons, List.sum_cons,
            List.length_cons, List.sum_cons]
          rw [ih yt hlen]
          push_cast
          ring

theorem zip_sum_linear_x (xs ys : List ℚ) (s b : ℚ) (hlen : xs.length = ys.length) :
    ((xs.zip ys).map (fun p => (s * p.1 + b - p.2) * p.1)).sum
      = s * (xs.map (fun a => a * a)).sum + b * xs.sum
        - (List.zipWith (fun a c => a * c) xs ys).sum := by
  induction xs generalizing ys with
  | nil =>
      cases ys with
      | nil => simp
      | cons y yt => simp at hlen
  | cons x xt ih =>
      cases ys with
      | nil => simp at hlen
      | cons y yt =>
          simp only [List.length_cons, Nat.add_right_cancel_iff] at hlen
          simp only [List.zip_cons_cons, List.map_cons, List.sum_cons,
            List.zipWith_cons_cons]
          rw [ih yt hlen]
          ring

theorem indices_length (n : ℕ) : (indices n).length = n := by
  unfold indices
  rw [List.length_map, List.length_range]

theorem indices_sum_eq (n : ℕ) : 2 * (indices n).sum = (n : ℚ) * ((n : ℚ) + 1) := by
  induction n with
  | zero => simp [indices]
  | succ m ih =>
      have hstep : indices (m + 1) = indices m ++ [(m : ℚ) + 1] := by
        simp [indices, List.range_succ]
      rw [hstep, List.sum_append]
      simp only [List.sum_cons, List.sum_nil]
      push_cast
      push_cast at ih
      linear_combination ih

theorem indices_sumsq_eq (n : ℕ) :
    6 * ((indices n).map (fun a => a * a)).sum
      = (n : ℚ) * ((n : ℚ) + 1) * (2 * (n : ℚ) + 1) := by
  induction n with
  | zero => simp [indices]
  | succ m ih =>
      have hstep : indices (m + 1) = indices m ++ [(m : ℚ) + 1] := by
        simp [indices, List.range_succ]
      rw [hstep, List.map_append, List.sum_append]
      simp only [List.map_cons, List.map_nil, List.sum_cons, List.sum_nil]
      push_cast
      push_cast at ih
      linear_combination ih

theorem indices_den_pos (n : ℕ) (hn : 2 ≤ n) :
    0 < (n : ℚ) * ((indices n).map (fun a => a * a)).sum
        - (indices n).sum * (indices n).sum := by
  have h2 := indices_sum_eq n
  have h6 := indices_sumsq_eq n
  have key : 12 * ((n : ℚ) * ((indices n).map (fun a => a * a)).sum
        - (indices n).sum * (indices n).sum)
      = (n : ℚ) * (n : ℚ) * ((n : ℚ) + 1) * ((n : ℚ) - 1) := by
    linear_combination (2 * (n : ℚ)) * h6
      - (3 * (2 * (indices n).sum + (n : ℚ) * ((n : ℚ) + 1))) * h2
  have hn' : (2 : ℚ) ≤ (n : ℚ) := by exact_mod_cast hn
  have hp1 : (0 : ℚ) < (n : ℚ) := by linarith
  have hp2 : (0 : ℚ) < (n : ℚ) + 1 := by linarith
  have hp3 : (0 : ℚ) < (n : ℚ) - 1 := by linarith
  have hprod := mul_pos (mul_pos (mul_pos hp1 hp1) hp2) hp3
  linarith

theorem slr_normal (ys : List ℚ) (hn : 2 ≤ ys.length) :
    (((indices ys.length).zip ys).map
        (fun p => ((simpleLinearRegression (indices ys.length) ys).1 * p.1
          + (simpleLinearRegression (indices ys.length) ys).2 - p.2) * p.1)).sum = 0
    ∧ (((indices ys.length).zip ys).map
        (fun p => (simpleLinearRegression (indices ys.length) ys).1 * p.1
          + (simpleLinearRegression (indices ys.length) ys).2 - p.2)).sum = 0 := by
  have hlen : (indices ys.length).length = ys.length := indices_length ys.length
  have hxlen : ¬ (indices ys.length).length < 2 := by omega
  have hpair : simpleLinearRegression (indices ys.length) ys
      = ((((indices ys.length).length : ℚ)
            * (List.zipWith (fun a b => a * b) (indices ys.length) ys).sum
            - (indices ys.length).sum * ys.sum)
          / (((indices ys.length).length : ℚ)
              * ((indices ys.length).map (fun a => a * a)).sum
            - (indices ys.length).sum * (indices ys.length).sum),
        (ys.sum
            - ((((indices ys.length).length : ℚ)
                * (List.zipWith (fun a b => a * b) (indices ys.length) ys).sum
                - (indices ys.length).sum * ys.sum)
              / (((indices ys.length).length : ℚ)
                  * ((indices ys.length).map (fun a => a * a)).sum
                - (indices ys.length).sum * (indices ys.length).sum))
              * (indices ys.length).sum)
          / ((indices ys.length).length : ℚ)) := by
    unfold simpleLinearRegression
    rw [if_neg hxlen]
  have hD : 0 < ((ys.length : ℕ) : ℚ) * ((indices ys.length).map (fun a => a * a)).sum
      - (indices ys.length).sum * (indices ys.length).sum :=
    indices_den_pos ys.length hn
  have hDne : ((ys.length : ℕ) : ℚ) * ((indices ys.length).map (fun a => a * a)).sum
      - (indices ys.length).sum * (indices ys.length).sum ≠ 0 := ne_of_gt hD
  have hNne : ((ys.length : ℕ) : ℚ) ≠ 0 := by
    have : 0 < ys.length := by omega
    exact_mod_cast this.ne'
  rw [hpair]
  constructor
  · rw [zip_sum_linear_x (indices ys.length) ys _ _ hlen, hlen]
    field_simp
    ring
  · rw [zip_sum_linear (indices ys.length) ys _ _ hlen, hlen]
    field_simp
    ring

end OLSLemmas

/-- Claim C4: trend prediction keeps only strictly positive history
entries; with fewer than two of them it returns the explicit "no
prediction" value (null, not zero); otherwise the fitted line is an
ordinary-least-squares optimum — no other line has smaller squared
error over the points (1, v1) .. (n, vn) — and the published value is
that line evaluated at index n+1, clamped to be non-negative; for the
history [10,20,30,40,50,60] (oldest to newest) the prediction is
exactly 70. -/
theorem c4_trend_prediction :
    (∀ hist : List ℚ, (hist.filter (fun v => decide (0 < v))).length < 2 →
        predictEmploymentMissing mlOn hist = none)
    ∧ (∀ hist : List ℚ, 2 ≤ (hist.filter (fun v => decide (0 < v))).length →
        ∃ s b : ℚ,
          IsOLSFit s b
            ((indices (hist.filter (fun v => decide (0 < v))).length).zip
              (hist.filter (fun v => decide (0 < v))))
          ∧ predictEmploymentMissing mlOn hist
              = some (max 0
                  (s * (((hist.filter (fun v => decide (0 < v))).length : ℚ) + 1) + b)))
    ∧ predictEmploymentMissing mlOn [10, 20, 30, 40, 50, 60] = some 70 := by
  refine ⟨?_, ?_, ?_⟩
  · intro hist h
    unfold predictEmploymentMissing
    simp only [mlOn, Bool.and_self, if_true]
    rw [if_pos h]
  · intro hist h
    refine ⟨(simpleLinearRegression
        (indices (hist.filter (fun v => decide (0 < v))).length)
        (hist.filter (fun v => decide (0 < v)))).1,
      (simpleLinearRegression
        (indices (hist.filter (fun v => decide (0 < v))).length)
        (hist.filter (fun v => decide (0 < v)))).2, ?_, ?_⟩
    · exact isOLSFit_of_normal _ _ _
        (slr_normal (hist.filter (fun v => decide (0 < v))) h).1
        (slr_normal (hist.filter (fun v => decide (0 < v))) h).2
    · unfold predictEmploymentMissing
      simp only [mlOn, Bool.and_self, if_true]
      rw [if_neg (not_lt.mpr h)]
      rfl
  · have hrange : List.range 6 = [0, 1, 2, 3, 4, 5] := rfl
    have hidx : indices 6 = [1, 2, 3, 4, 5, 6] := by
      unfold indices
      rw [hrange]
      norm_num
    norm_num [predictEmploymentMissing, mlOn, simpleLinearRegression,
      predictLinearRegression, hidx]

/-- Witness for C4: the short-history clause applied to a two-entry
history with a single positive value. -/
theorem c4_witness :
    predictEmploymentMissing mlOn [0, 42] = none :=
  c4_trend_prediction.1 [0, 42] (by norm_num)

end MG
